import Mathlib

/-!
Verification of the median aggregate extension (src/median.c).

The C module implements a PostgreSQL aggregate: `median_transfn` is called
once per input row and keeps a singly linked list of the non-null values seen
so far, sorted by a per-kind comparison routine (`int8_cmp`, `int4_cmp`,
`int2_cmp`, `float4_cmp`, `float8_cmp`, `string_cmp`), together with a running
count `num_vals`; `median_finalfn` walks `num_vals / 2` links from the head of
the list and returns the value found there.

The embedding below models the linked list as a `List Datum`, the host's
untyped `Datum` word as a tagged sum, and C `int` counters as `Nat` (the
counter only ever grows by one per row; overflow is unreachable for any
realistic group).  Fallible outcomes of `median_finalfn` are an
`Option (Option Datum)`: `none` models a null-pointer dereference (a crash),
`some none` models `PG_RETURN_NULL()`, and `some (some d)` a returned datum.
-/

/-- Model of IEEE-754 floating-point values as seen through the C comparison
`<=`, the only operation `float4_cmp` / `float8_cmp` ever perform on them.
`nan` compares false against everything (including itself), exactly as the C
`<=` does on NaN; the infinities bound the finite values; finite binary32 and
binary64 values are rationals and compare by numeric value.  `-0.0` and `0.0`
are identified because `<=` cannot distinguish them. -/
inductive PgFloat where
  | nan : PgFloat
  | negInf : PgFloat
  | val : ℚ → PgFloat
  | posInf : PgFloat
deriving DecidableEq

/-- The C `<=` on two float operands (false whenever either operand is NaN). -/
def PgFloat.le : PgFloat → PgFloat → Bool
  | .nan, _ => false
  | _, .nan => false
  | .negInf, _ => true
  | _, .negInf => false
  | _, .posInf => true
  | .posInf, _ => false
  | .val a, .val b => a ≤ b

/-- Model of the host's untyped `Datum` word.  The code stores the raw
argument datum (`PG_GETARG_DATUM(1)`) in each list node and reinterprets it
through `DatumGetInt64` / `DatumGetInt32` / ... at every comparison.  A datum
is one of: an integer payload (int2 / int4 / int8 / timestamptz all live in
the integer word), a float payload, or a text payload. -/
inductive Datum where
  | i64 : Int → Datum
  | f : PgFloat → Datum
  | txt : String → Datum
deriving DecidableEq

/-- Two's-complement truncation of an integer word to `w` bits, used to model
reading a narrower integer out of a `Datum` word. -/
def wrapInt (w : Nat) (n : Int) : Int :=
  (n + 2 ^ (w - 1)) % 2 ^ w - 2 ^ (w - 1)

/-- The C `DatumGetInt64`.  Reinterpreting a non-integer datum as an integer
is undefined behaviour in the original; it is modelled by an arbitrary fixed
word. -/
def DatumGetInt64 : Datum → Int
  | .i64 n => n
  | _ => 0

/-- The C `DatumGetInt32`: the low 32 bits of the datum word, signed. -/
def DatumGetInt32 : Datum → Int
  | .i64 n => wrapInt 32 n
  | _ => 0

/-- The C `DatumGetInt16`: the low 16 bits of the datum word, signed. -/
def DatumGetInt16 : Datum → Int
  | .i64 n => wrapInt 16 n
  | _ => 0

/-- The C `DatumGetFloat8` (and `DatumGetFloat4`): the float payload of the
datum.  Reinterpreting a non-float datum is undefined behaviour in the
original; it is modelled by an arbitrary fixed float. -/
def DatumGetFloat8 : Datum → PgFloat
  | .f x => x
  | _ => .nan

/-- The C `DatumGetFloat4`; see `DatumGetFloat8`. -/
def DatumGetFloat4 : Datum → PgFloat
  | .f x => x
  | _ => .nan

/-- The byte sequence of a string as `strcmp` sees it: the UTF-8 bytes of the
text datum up to (excluding) the first NUL byte, since `text_to_cstring`
produces a NUL-terminated C string. -/
def text_to_cstring (d : Datum) : List Nat :=
  match d with
  | .txt s => (s.toUTF8.data.toList.map (fun b => b.toNat)).takeWhile (fun b => b ≠ 0)
  | _ => []

/-- The test `strcmp a b <= 0` on two byte sequences: lexicographic
byte-order comparison (bytes compare as unsigned char, i.e. as `Nat`). -/
def lexLe : List Nat → List Nat → Bool
  | [], _ => true
  | _ :: _, [] => false
  | a :: as, b :: bs => if a < b then true else if b < a then false else lexLe as bs

/-- The argument type oids `median_transfn` switches on.  The six supported
kinds appear as case labels in the C switch; `BOOLOID` stands for any other
oid, for which no case label matches and the switch body is skipped. -/
inductive Oid where
  | TIMESTAMPTZOID : Oid
  | INT8OID : Oid
  | INT4OID : Oid
  | INT2OID : Oid
  | FLOAT4OID : Oid
  | FLOAT8OID : Oid
  | TEXTOID : Oid
  | BOOLOID : Oid
deriving DecidableEq

/-- The six kinds that have a case label in the C switch. -/
def supportedKind : Oid → Bool
  | .BOOLOID => false
  | _ => true

/-- The internal aggregate state `SortMemoryState`: the head of the sorted
linked list of values (`vals`, modelled as a `List`) and the running count
`num_vals`. -/
structure SortMemoryState where
  vals : List Datum
  num_vals : Nat
deriving DecidableEq

/-- Tail portion of the insertion loop shared by the `*_cmp` routines, after
at least one element has been passed (so `sort_vals_prev` is set): advance
while the current element satisfies `currval <= newval`; splice the new node
before the first element that does not, or at the tail if the list is
exhausted. -/
def cmp_rest {α : Type} (leNew : α → Bool) (new_val_node : α) : List α → List α
  | [] => [new_val_node]
  | x :: xs =>
      if leNew x then x :: cmp_rest leNew new_val_node xs
      else new_val_node :: x :: xs

/-- The full `while (sort_vals != NULL)` loop of the `*_cmp` routines.  On an
empty list the loop body never runs and the (NULL) head is returned unchanged
with the new node left unlinked; `median_transfn` never reaches that case
because of its first-value fast path. -/
def cmp_loop {α : Type} (leNew : α → Bool) (new_val_node : α) : List α → List α
  | [] => []
  | x :: xs =>
      if leNew x then x :: cmp_rest leNew new_val_node xs
      else new_val_node :: x :: xs

/-- The C `int8_cmp`: insert a node into the list, ordering by the stored
datums reinterpreted as int64. -/
def int8_cmp (newval : Int) (new_val_node : Datum) (sort_vals_head : List Datum) : List Datum :=
  cmp_loop (fun d => DatumGetInt64 d ≤ newval) new_val_node sort_vals_head

/-- The C `int4_cmp`. -/
def int4_cmp (newval : Int) (new_val_node : Datum) (sort_vals_head : List Datum) : List Datum :=
  cmp_loop (fun d => DatumGetInt32 d ≤ newval) new_val_node sort_vals_head

/-- The C `int2_cmp`. -/
def int2_cmp (newval : Int) (new_val_node : Datum) (sort_vals_head : List Datum) : List Datum :=
  cmp_loop (fun d => DatumGetInt16 d ≤ newval) new_val_node sort_vals_head

/-- The C `float8_cmp`. -/
def float8_cmp (newval : PgFloat) (new_val_node : Datum) (sort_vals_head : List Datum) : List Datum :=
  cmp_loop (fun d => PgFloat.le (DatumGetFloat8 d) newval) new_val_node sort_vals_head

/-- The C `float4_cmp`. -/
def float4_cmp (newval : PgFloat) (new_val_node : Datum) (sort_vals_head : List Datum) : List Datum :=
  cmp_loop (fun d => PgFloat.le (DatumGetFloat4 d) newval) new_val_node sort_vals_head

/-- The C `string_cmp`: `newval` is the C string produced by
`text_to_cstring` for the new value; each stored datum is converted the same
way and compared with `strcmp`. -/
def string_cmp (newval : List Nat) (new_val_node : Datum) (sort_vals_head : List Datum) : List Datum :=
  cmp_loop (fun d => lexLe (text_to_cstring d) newval) new_val_node sort_vals_head

/-- The `switch (argtype)` statement of `median_transfn`: dispatch on the
argument type oid, extract the comparison key from the new datum with the
matching `PG_GETARG_*` accessor, and call the kind's insertion routine.  When
no case label matches, the switch body is skipped and the head is unchanged
(the allocated node is leaked). -/
def switchInsert (argtype : Oid) (d : Datum) (sort_vals_head : List Datum) : List Datum :=
  match argtype with
  | .TIMESTAMPTZOID | .INT8OID => int8_cmp (DatumGetInt64 d) d sort_vals_head
  | .INT4OID => int4_cmp (DatumGetInt32 d) d sort_vals_head
  | .INT2OID => int2_cmp (DatumGetInt16 d) d sort_vals_head
  | .FLOAT4OID => float4_cmp (DatumGetFloat4 d) d sort_vals_head
  | .FLOAT8OID => float8_cmp (DatumGetFloat8 d) d sort_vals_head
  | .TEXTOID => string_cmp (text_to_cstring d) d sort_vals_head
  | .BOOLOID => sort_vals_head

/-- The C `median_transfn` on the in-contract path (aggregate context holds).
`arg0` is the PostgreSQL transition value: `none` models a NULL first
argument, in which case a fresh state (`vals = NULL`, `num_vals = 0`) is
allocated.  `arg1` is the row value, `none` when the row is NULL.  The stored
node payload is the raw datum `PG_GETARG_DATUM(1)`; only the comparison key
goes through the typed accessor. -/
def median_transfn (argtype : Oid) (arg0 : Option SortMemoryState) (arg1 : Option Datum) :
    SortMemoryState :=
  let state : SortMemoryState :=
    match arg0 with
    | some s => s
    | none => { vals := [], num_vals := 0 }
  match arg1 with
  | none => state
  | some d =>
    match state.vals with
    | [] => { vals := [d], num_vals := 1 }
    | _ :: _ =>
      { vals := switchInsert argtype d state.vals, num_vals := state.num_vals + 1 }

/-- The C `median_finalfn` on the in-contract path.  Result `none` models a
null-pointer dereference (the walk runs past the end of the list, i.e. the
crash on an empty list), `some none` models `PG_RETURN_NULL()` for a NULL
transition value, and `some (some d)` a returned datum. -/
def median_finalfn (arg0 : Option SortMemoryState) : Option (Option Datum) :=
  match arg0 with
  | none => some none
  | some state =>
    let median_index := state.num_vals / 2
    match (state.vals.drop median_index).head? with
    | some d => some (some d)
    | none => none

/-- One aggregate group evaluated under the host protocol: the transition
value starts as NULL (`none`) and `median_transfn` is invoked once per row in
row order. -/
def runAgg (argtype : Oid) (rows : List (Option Datum)) : Option SortMemoryState :=
  rows.foldl (fun st v => some (median_transfn argtype st v)) none

/-- The comparison relation kind `k`'s insertion routine orders by: stored
datums are reinterpreted through the kind's accessor and compared with the C
`<=` (or `strcmp <= 0` for text). -/
def kindLE (k : Oid) (a b : Datum) : Bool :=
  match k with
  | .TIMESTAMPTZOID | .INT8OID => DatumGetInt64 a ≤ DatumGetInt64 b
  | .INT4OID => DatumGetInt32 a ≤ DatumGetInt32 b
  | .INT2OID => DatumGetInt16 a ≤ DatumGetInt16 b
  | .FLOAT4OID => PgFloat.le (DatumGetFloat4 a) (DatumGetFloat4 b)
  | .FLOAT8OID => PgFloat.le (DatumGetFloat8 a) (DatumGetFloat8 b)
  | .TEXTOID => lexLe (text_to_cstring a) (text_to_cstring b)
  | .BOOLOID => true

/-- A state update applied for each non-null value in row order, with the
state threaded through as the host threads the transition value. -/
def runVals (k : Oid) (st : SortMemoryState) (vs : List Datum) : SortMemoryState :=
  vs.foldl (fun s v => median_transfn k (some s) (some v)) st

/-- The ordering relation of kind `k` as a proposition. -/
abbrev kindRel (k : Oid) (a b : Datum) : Prop := kindLE k a b = true

/-- Marked version of the spec's stability test for C6: the value sequence
[3, 1, 3, 2, 3] paired with arrival indices 0..4, pushed through the same
insertion procedure `median_transfn` uses (first-value fast path on an empty
list, then the shared loop ordering only on the value component). -/
def markedRun : List (Int × Nat) :=
  [((3 : Int), 0), (1, 1), (3, 2), (2, 3), (3, 4)].foldl
    (fun l p =>
      match l with
      | [] => [p]
      | _ :: _ => cmp_loop (fun q => q.1 ≤ p.1) p l) []

/-- Full UTF-8 byte sequence of a text datum (no NUL truncation): the
lexicographic byte order the specification refers to. -/
def strBytes (d : Datum) : List Nat :=
  match d with
  | .txt s => s.toUTF8.data.toList.map (fun b => b.toNat)
  | _ => []

/-- Recogniser for text datums. -/
def isTextDatum : Datum → Bool
  | .txt _ => true
  | _ => false

lemma cmp_rest_eq {α : Type} (p : α → Bool) (v : α) :
    ∀ l : List α, cmp_rest p v l = l.takeWhile p ++ v :: l.dropWhile p := by
  intro l
  induction l with
  | nil => rfl
  | cons x xs ih =>
    by_cases h : p x = true
    · simp [cmp_rest, h, List.takeWhile_cons, List.dropWhile_cons, ih]
    · simp at h
      simp [cmp_rest, h, List.takeWhile_cons, List.dropWhile_cons]

lemma cmp_loop_eq {α : Type} (p : α → Bool) (v : α) (l : List α) (h : l ≠ []) :
    cmp_loop p v l = l.takeWhile p ++ v :: l.dropWhile p := by
  cases l with
  | nil => exact absurd rfl h
  | cons x xs =>
    by_cases hx : p x = true
    · simp [cmp_loop, hx, List.takeWhile_cons, List.dropWhile_cons, cmp_rest_eq]
    · simp at hx
      simp [cmp_loop, hx, List.takeWhile_cons, List.dropWhile_cons]

lemma switchInsert_eq (k : Oid) (hk : supportedKind k = true) (d : Datum) (l : List Datum) :
    switchInsert k d l = cmp_loop (fun x => kindLE k x d) d l := by
  cases k <;> first | rfl | simp [supportedKind] at hk

lemma lexLe_total : ∀ a b : List Nat, lexLe a b = true ∨ lexLe b a = true := by
  intro a
  induction a with
  | nil => intro b; left; rfl
  | cons x xs ih =>
    intro b
    cases b with
    | nil => right; rfl
    | cons y ys =>
      rcases Nat.lt_trichotomy x y with h | h | h
      · left; simp [lexLe, h]
      · subst h
        rcases ih ys with h' | h'
        · left; simp [lexLe, h']
        · right; simp [lexLe, h']
      · right; simp [lexLe, h]

lemma lexLe_trans : ∀ a b c : List Nat,
    lexLe a b = true → lexLe b c = true → lexLe a c = true := by
  intro a
  induction a with
  | nil => intro b c _ _; rfl
  | cons x xs ih =>
    intro b c h1 h2
    cases b with
    | nil => simp [lexLe] at h1
    | cons y ys =>
      cases c with
      | nil => simp [lexLe] at h2
      | cons z zs =>
        simp only [lexLe] at h1 h2 ⊢
        rcases Nat.lt_trichotomy x y with hxy | hxy | hxy
        · rcases Nat.lt_trichotomy y z with hyz | hyz | hyz
          · simp [Nat.lt_trans hxy hyz]
          · subst hyz; simp [hxy]
          · exfalso; simp [Nat.lt_asymm hyz, hyz] at h2
        · subst hxy
          rcases Nat.lt_trichotomy x z with hxz | hxz | hxz
          · simp [hxz]
          · subst hxz
            simp [Nat.lt_irrefl] at h1 h2 ⊢
            exact ih _ _ h1 h2
          · exfalso; simp [Nat.lt_asymm hxz, hxz] at h2
        · exfalso; simp [Nat.lt_asymm hxy, hxy] at h1

lemma pgfloat_le_trans : ∀ a b c : PgFloat,
    PgFloat.le a b = true → PgFloat.le b c = true → PgFloat.le a c = true := by
  intro a b c h1 h2
  cases a <;> cases b <;> cases c <;> simp_all [PgFloat.le]
  exact le_trans h1 h2

lemma kindLE_trans (k : Oid) : ∀ a b c : Datum,
    kindLE k a b = true → kindLE k b c = true → kindLE k a c = true := by
  intro a b c h1 h2
  cases k <;> simp_all [kindLE]
  · omega
  · omega
  · omega
  · omega
  · exact pgfloat_le_trans _ _ _ h1 h2
  · exact pgfloat_le_trans _ _ _ h1 h2
  · exact lexLe_trans _ _ _ h1 h2

lemma dropWhile_head_not {α : Type} (p : α → Bool) :
    ∀ (l : List α) (x : α) (xs : List α), l.dropWhile p = x :: xs → p x = false := by
  intro l
  induction l with
  | nil => intro x xs h; simp [List.dropWhile] at h
  | cons a as ih =>
    intro x xs h
    by_cases ha : p a = true
    · rw [List.dropWhile_cons, if_pos ha] at h
      exact ih x xs h
    · simp at ha
      rw [List.dropWhile_cons, if_neg (by simp [ha])] at h
      cases h
      exact ha

lemma pairwise_splice (le : Datum → Datum → Bool)
    (htrans : ∀ a b c, le a b = true → le b c = true → le a c = true)
    (v : Datum) (l : List Datum)
    (hs : l.Pairwise (fun a b => le a b = true))
    (htot : ∀ x ∈ l, le x v = true ∨ le v x = true) :
    (l.takeWhile (fun x => le x v) ++ v :: l.dropWhile (fun x => le x v)).Pairwise
      (fun a b => le a b = true) := by
  have hsplit : l.takeWhile (fun x => le x v) ++ l.dropWhile (fun x => le x v) = l :=
    List.takeWhile_append_dropWhile _ _
  have hcross : ∀ a ∈ l.takeWhile (fun x => le x v), ∀ b ∈ l.dropWhile (fun x => le x v),
      le a b = true := by
    have := hsplit ▸ hs
    exact (List.pairwise_append.mp this).2.2
  have htk : (l.takeWhile (fun x => le x v)).Pairwise (fun a b => le a b = true) :=
    hs.sublist (List.takeWhile_sublist _)
  have hdw : (l.dropWhile (fun x => le x v)).Pairwise (fun a b => le a b = true) :=
    hs.sublist (List.dropWhile_sublist _)
  have hvd : ∀ y ∈ l.dropWhile (fun x => le x v), le v y = true := by
    cases hd : l.dropWhile (fun x => le x v) with
    | nil => intro y hy; simp at hy
    | cons x xs =>
      intro y hy
      have hxmem : x ∈ l := (List.dropWhile_sublist _).subset (hd ▸ List.mem_cons_self x xs)
      have hxv : le x v = false := dropWhile_head_not _ l x xs hd
      have hvx : le v x = true := by
        rcases htot x hxmem with h | h
        · rw [hxv] at h; cases h
        · exact h
      rcases List.mem_cons.mp hy with rfl | hy'
      · exact hvx
      · have hxy : le x y = true := (List.pairwise_cons.mp (hd ▸ hdw)).1 y hy'
        exact htrans _ _ _ hvx hxy
  rw [List.pairwise_append]
  refine ⟨htk, ?_, ?_⟩
  · rw [List.pairwise_cons]
    exact ⟨hvd, hdw⟩
  · intro a ha b hb
    rcases List.mem_cons.mp hb with hb0 | hb'
    · subst hb0
      have h' := List.mem_takeWhile_imp ha
      simpa using h'
    · exact hcross a ha b hb'

lemma transfn_step_props (k : Oid) (hk : supportedKind k = true)
    (st : SortMemoryState) (v : Datum)
    (hs : st.vals.Pairwise (kindRel k))
    (hn : st.num_vals = st.vals.length)
    (ht : ∀ x ∈ st.vals, kindLE k x v = true ∨ kindLE k v x = true) :
    (median_transfn k (some st) (some v)).vals.Pairwise (kindRel k) ∧
    (median_transfn k (some st) (some v)).num_vals = st.num_vals + 1 ∧
    (median_transfn k (some st) (some v)).vals.Perm (v :: st.vals) := by
  obtain ⟨vals, n⟩ := st
  simp only [SortMemoryState.vals, SortMemoryState.num_vals] at hs hn ht
  cases vals with
  | nil =>
    subst hn
    exact ⟨List.pairwise_singleton _ _, rfl, List.Perm.refl _⟩
  | cons x xs =>
    have hins : (median_transfn k (some ⟨x :: xs, n⟩) (some v)) =
        ⟨cmp_loop (fun y => kindLE k y v) v (x :: xs), n + 1⟩ := by
      simp only [median_transfn]
      rw [switchInsert_eq k hk]
    rw [hins, cmp_loop_eq _ _ _ (by simp)]
    refine ⟨pairwise_splice (kindLE k) (kindLE_trans k) v (x :: xs) hs ht, rfl, ?_⟩
    have hp : (x :: xs).takeWhile (fun y => kindLE k y v) ++
        (x :: xs).dropWhile (fun y => kindLE k y v) = x :: xs :=
      List.takeWhile_append_dropWhile _ _
    have h1 : List.Perm
        ((x :: xs).takeWhile (fun y => kindLE k y v) ++
          v :: (x :: xs).dropWhile (fun y => kindLE k y v))
        (v :: ((x :: xs).takeWhile (fun y => kindLE k y v) ++
          (x :: xs).dropWhile (fun y => kindLE k y v))) := List.perm_middle
    rw [hp] at h1
    exact h1

lemma runVals_props (k : Oid) (hk : supportedKind k = true) :
    ∀ (vs : List Datum) (st : SortMemoryState),
      st.vals.Pairwise (kindRel k) →
      st.num_vals = st.vals.length →
      (∀ a ∈ st.vals, ∀ b ∈ vs, kindLE k a b = true ∨ kindLE k b a = true) →
      (∀ a ∈ vs, ∀ b ∈ vs, kindLE k a b = true ∨ kindLE k b a = true) →
      (runVals k st vs).vals.Pairwise (kindRel k) ∧
      (runVals k st vs).num_vals = st.num_vals + vs.length ∧
      (runVals k st vs).vals.Perm (st.vals ++ vs) := by
  intro vs
  induction vs with
  | nil =>
    intro st hs hn _ _
    refine ⟨hs, rfl, ?_⟩
    have h : (runVals k st []).vals = st.vals ++ [] := by simp [runVals]
    rw [h]
  | cons v vs' ih =>
    intro st hs hn hold hnew
    have hstep := transfn_step_props k hk st v hs hn
      (fun x hx => hold x hx v (List.mem_cons_self v vs'))
    set st' := median_transfn k (some st) (some v) with hst'
    have hmem' : ∀ a ∈ st'.vals, a = v ∨ a ∈ st.vals := by
      intro a ha
      have := hstep.2.2.mem_iff.mp ha
      simpa using this
    have h1 : st'.vals.Pairwise (kindRel k) := hstep.1
    have h2 : st'.num_vals = st'.vals.length := by
      rw [hstep.2.1, hstep.2.2.length_eq, hn]
      rfl
    have h3 : ∀ a ∈ st'.vals, ∀ b ∈ vs', kindLE k a b = true ∨ kindLE k b a = true := by
      intro a ha b hb
      rcases hmem' a ha with rfl | ha'
      · exact hnew a (List.mem_cons_self a vs') b (List.mem_cons_of_mem a hb)
      · exact hold a ha' b (List.mem_cons_of_mem v hb)
    have h4 : ∀ a ∈ vs', ∀ b ∈ vs', kindLE k a b = true ∨ kindLE k b a = true :=
      fun a ha b hb =>
        hnew a (List.mem_cons_of_mem v ha) b (List.mem_cons_of_mem v hb)
    have hrest := ih st' h1 h2 h3 h4
    have hrun : runVals k st (v :: vs') = runVals k st' vs' := rfl
    rw [hrun]
    refine ⟨hrest.1, ?_, ?_⟩
    · rw [hrest.2.1, hstep.2.1]
      simp [Nat.add_assoc, Nat.add_comm 1 vs'.length]
    · have hp1 : List.Perm (runVals k st' vs').vals (st'.vals ++ vs') := hrest.2.2
      have hp2 : List.Perm (st'.vals ++ vs') ((v :: st.vals) ++ vs') :=
        hstep.2.2.append_right vs'
      have hp3 : List.Perm (v :: (st.vals ++ vs')) (st.vals ++ v :: vs') :=
        List.perm_middle.symm
      exact (hp1.trans hp2).trans hp3

lemma runAgg_cons (k : Oid) (v : Datum) (vs : List Datum) :
    runAgg k ((v :: vs).map some) = some (runVals k ⟨[], 0⟩ (v :: vs)) := by
  have haux : ∀ (ws : List Datum) (st : SortMemoryState),
      List.foldl (fun s w => some (median_transfn k s w)) (some st) (ws.map some) =
        some (runVals k st ws) := by
    intro ws
    induction ws with
    | nil => intro st; rfl
    | cons w ws' ih =>
      intro st
      simpa [runVals] using ih (median_transfn k (some st) (some w))
  have h0 : median_transfn k none (some v) = median_transfn k (some ⟨[], 0⟩) (some v) := rfl
  calc runAgg k ((v :: vs).map some)
      = List.foldl (fun s w => some (median_transfn k s w))
          (some (median_transfn k none (some v))) (vs.map some) := rfl
    _ = some (runVals k (median_transfn k (some ⟨[], 0⟩) (some v)) vs) := by rw [h0, haux]
    _ = some (runVals k ⟨[], 0⟩ (v :: vs)) := rfl

lemma eq_of_sorted_perm (le : Datum → Datum → Bool) :
    ∀ (l₁ l₂ : List Datum), List.Perm l₁ l₂ →
      l₁.Pairwise (fun a b => le a b = true) → l₂.Pairwise (fun a b => le a b = true) →
      (∀ a ∈ l₁, ∀ b ∈ l₁, le a b = true → le b a = true → a = b) →
      l₁ = l₂ := by
  intro l₁
  induction l₁ with
  | nil =>
    intro l₂ hp _ _ _
    exact (hp.symm.eq_nil).symm
  | cons a t₁ ih =>
    intro l₂ hp hs₁ hs₂ hanti
    cases l₂ with
    | nil => exact absurd hp.eq_nil (by simp)
    | cons b t₂ =>
      have hab : a = b := by
        have hbmem : b ∈ a :: t₁ := hp.mem_iff.mpr (List.mem_cons_self b t₂)
        have hamem : a ∈ b :: t₂ := hp.mem_iff.mp (List.mem_cons_self a t₁)
        rcases List.mem_cons.mp hbmem with h | hb'
        · exact h.symm
        rcases List.mem_cons.mp hamem with h | ha'
        · exact h
        have h1 : le a b = true := (List.pairwise_cons.mp hs₁).1 b hb'
        have h2 : le b a = true := (List.pairwise_cons.mp hs₂).1 a ha'
        exact hanti a (List.mem_cons_self a t₁) b hbmem h1 h2
      subst hab
      have htail : List.Perm t₁ t₂ := hp.cons_inv
      have h₁' : t₁.Pairwise (fun a b => le a b = true) := (List.pairwise_cons.mp hs₁).2
      have h₂' : t₂.Pairwise (fun a b => le a b = true) := (List.pairwise_cons.mp hs₂).2
      have hanti' : ∀ x ∈ t₁, ∀ y ∈ t₁, le x y = true → le y x = true → x = y :=
        fun x hx y hy => hanti x (List.mem_cons_of_mem a hx) y (List.mem_cons_of_mem a hy)
      rw [ih t₂ htail h₁' h₂' hanti']

lemma head?_drop_eq {α : Type} : ∀ (l : List α) (n : Nat), (l.drop n).head? = l[n]? := by
  intro l
  induction l with
  | nil => intro n; simp
  | cons x xs ih =>
    intro n
    cases n with
    | zero => simp
    | succ m => simp [ih m]

lemma takeWhile_of_all {α : Type} (p : α → Bool) :
    ∀ l : List α, (∀ x ∈ l, p x = true) → l.takeWhile p = l := by
  intro l
  induction l with
  | nil => intro _; rfl
  | cons x xs ih =>
    intro h
    rw [List.takeWhile_cons, if_pos (h x (List.mem_cons_self x xs)),
      ih (fun y hy => h y (List.mem_cons_of_mem x hy))]

/-- C2: the claim says finalize on a group with zero accepted values — in
particular a group whose rows were all NULL, so the transition function ran
and allocated a state but inserted nothing — returns an explicit null result
and never crashes.  The code violates this: for an all-NULL group the state
exists with an empty list, `median_finalfn` computes `median_index = 0` and
dereferences the NULL list head (`sort_vals->val`), modelled here as the
crash outcome `none` (the spec's §9 documents this as the null-only-group
crash and defines the corrected behaviour instead). -/
theorem finalize_allnull_group_crashes :
    runAgg .INT8OID [none] = some ⟨[], 0⟩ ∧
    median_finalfn (runAgg .INT8OID [none]) = none :=
  ⟨rfl, rfl⟩

/-- C3: the claim says an accumulation call with a non-null value of an
unsupported kind raises `UnsupportedKind` and leaves the store unchanged.
The code violates this: no case label matches, the switch body is skipped
without any error, `ordered_values` is indeed unchanged, but `num_vals` is
still incremented — here from 1 to 2 on a store holding one int64 value. -/
theorem unsupported_kind_silently_counted :
    median_transfn .BOOLOID (some ⟨[.i64 5], 1⟩) (some (.i64 1)) = ⟨[.i64 5], 2⟩ :=
  rfl

/-- C5: the claim says `count` always equals the length of `ordered_values`.
The code violates this on an unsupported-kind call: after accepting the int64
value 7 and then a value of an unsupported kind, the state holds one stored
value but `num_vals = 2` (the spec's §9 documents this count corruption as a
bug of the original). -/
theorem count_exceeds_stored_values :
    runAgg .BOOLOID [some (.i64 7), some (.i64 1)] = some ⟨[.i64 7], 2⟩ ∧
    (2 : Nat) ≠ [Datum.i64 7].length :=
  ⟨rfl, by decide⟩

/-- C10: an accumulation call with a NULL row value returns the state
unchanged — no increment of `num_vals`, no change to `vals` — and on the very
first call (NULL transition value) a fresh empty state with `num_vals = 0`
and an empty list is allocated and returned, so NULL rows consume no
insertion. -/
theorem null_input_leaves_state_unchanged (k : Oid) (arg0 : Option SortMemoryState) :
    median_transfn k arg0 none = arg0.getD ⟨[], 0⟩ := by
  cases arg0 <;> rfl

/-- C7: first-value fast path.  For every accumulation call on an empty store
(whether the transition value is NULL or an allocated state whose list is
empty) with a non-null value `v`, the value becomes the sole element and
`num_vals` becomes 1, with no comparison performed — the fast path runs
before the type switch, so this holds for every kind `k`, supported or not —
and finalize on that one-element store returns `v`. -/
theorem first_value_fast_path (k : Oid) (s : SortMemoryState) (v : Datum)
    (h : s.vals = []) :
    median_transfn k (some s) (some v) = ⟨[v], 1⟩ ∧
    median_transfn k none (some v) = ⟨[v], 1⟩ ∧
    median_finalfn (some ⟨[v], 1⟩) = some (some v) := by
  obtain ⟨vals, n⟩ := s
  have h' : vals = [] := h
  subst h'
  refine ⟨rfl, rfl, ?_⟩
  simp [median_finalfn]

/-- Witness for C7 at a concrete text input. -/
theorem first_value_fast_path_witness :
    median_transfn .TEXTOID (some ⟨[], 0⟩) (some (.txt "x")) = ⟨[.txt "x"], 1⟩ ∧
    median_transfn .TEXTOID none (some (.txt "x")) = ⟨[.txt "x"], 1⟩ ∧
    median_finalfn (some ⟨[.txt "x"], 1⟩) = some (some (.txt "x")) :=
  first_value_fast_path .TEXTOID ⟨[], 0⟩ (.txt "x") rfl

lemma median_transfn_tstz_eq_int8 (arg0 : Option SortMemoryState) (arg1 : Option Datum) :
    median_transfn .TIMESTAMPTZOID arg0 arg1 = median_transfn .INT8OID arg0 arg1 := by
  cases arg0 with
  | none => cases arg1 <;> rfl
  | some s =>
    obtain ⟨vals, n⟩ := s
    cases vals with
    | nil => cases arg1 <;> rfl
    | cons x xs => cases arg1 <;> rfl

/-- C9: values tagged `TIMESTAMPTZOID` are processed exactly as values tagged
`INT8OID` — the two case labels share the same switch arm, so for every row
sequence the resulting store and the final result coincide. -/
theorem timestamptz_behaves_as_int8 (rows : List (Option Datum)) :
    runAgg .TIMESTAMPTZOID rows = runAgg .INT8OID rows ∧
    median_finalfn (runAgg .TIMESTAMPTZOID rows) =
      median_finalfn (runAgg .INT8OID rows) := by
  have hf : (fun (st : Option SortMemoryState) (v : Option Datum) =>
      some (median_transfn .TIMESTAMPTZOID st v)) =
      fun st v => some (median_transfn .INT8OID st v) := by
    funext st v
    rw [median_transfn_tstz_eq_int8]
  constructor
  · unfold runAgg
    rw [hf]
  · unfold runAgg
    rw [hf]

/-- C4 counterexample: the claim as stated fails for a supported kind.  With
float8 inputs `[NaN, 1.0]` the store becomes `[1.0, NaN]` (the C `<=` is
false on NaN, so 1.0 is spliced before it), and that list is not
non-decreasing under the float8 comparison, since `1.0 <= NaN` is false. -/
theorem float_nan_breaks_sortedness :
    runAgg .FLOAT8OID [some (.f .nan), some (.f (.val 1))] =
      some ⟨[.f (.val 1), .f .nan], 2⟩ ∧
    ¬ ([Datum.f (.val 1), Datum.f .nan].Pairwise (kindRel .FLOAT8OID)) :=
  ⟨by decide, by decide⟩

/-- C4 (amended): for every sequence of accepted non-null values of a single
supported kind on which the kind's comparison is total (which always holds
for the integer and text kinds, and for the float kinds exactly when no NaN
is among the inputs), the stored sequence `ordered_values` is non-decreasing
under that kind's comparison after each accumulation call (the state after
any call is the run over the corresponding prefix, and the theorem quantifies
over all input sequences, hence over all prefixes). -/
theorem ordered_values_sorted_after_each_call (k : Oid) (hk : supportedKind k = true)
    (vs : List Datum)
    (htot : ∀ a ∈ vs, ∀ b ∈ vs, kindLE k a b = true ∨ kindLE k b a = true) :
    ∀ st, runAgg k (vs.map some) = some st → st.vals.Pairwise (kindRel k) := by
  intro st h
  cases vs with
  | nil => simp [runAgg] at h
  | cons v vs' =>
    rw [runAgg_cons] at h
    cases h
    exact (runVals_props k hk (v :: vs') ⟨[], 0⟩ (by simp) rfl (by simp) htot).1

/-- Witness for C4's amended theorem at concrete int64 inputs [5, 1, 3]. -/
theorem ordered_values_sorted_witness :
    (⟨[Datum.i64 1, Datum.i64 3, Datum.i64 5], 3⟩ : SortMemoryState).vals.Pairwise
      (kindRel .INT8OID) :=
  ordered_values_sorted_after_each_call .INT8OID (by decide)
    [.i64 5, .i64 1, .i64 3] (by decide) ⟨[.i64 1, .i64 3, .i64 5], 3⟩ (by decide)

/-- C1: for every store holding n >= 1 accepted values of one supported kind
(whose comparison is total and antisymmetric on those values, as it is for
every in-range value of the integer and text kinds and for NaN-free floats),
`median_finalfn` returns the element at zero-based index `n / 2` of the
sorted sequence — stated as: for every sorted permutation `ws` of the inputs,
the result is `ws[n / 2]` — reached by walking `n / 2` links from the list
head.  In particular int64 inputs [5, 1, 3] yield 3 and [1, 2, 3, 4] yield 3
(the element right of the midpoint, not an average). -/
theorem median_returns_middle_of_sorted (k : Oid) (hk : supportedKind k = true)
    (vs : List Datum) (hne : vs ≠ [])
    (htot : ∀ a ∈ vs, ∀ b ∈ vs, kindLE k a b = true ∨ kindLE k b a = true)
    (hanti : ∀ a ∈ vs, ∀ b ∈ vs, kindLE k a b = true → kindLE k b a = true → a = b)
    (ws : List Datum) (hperm : List.Perm ws vs) (hsort : ws.Pairwise (kindRel k)) :
    median_finalfn (runAgg k (vs.map some)) = some ws[vs.length / 2]? := by
  cases vs with
  | nil => exact absurd rfl hne
  | cons v vs' =>
    rw [runAgg_cons]
    obtain ⟨hp, hnum, hperm'⟩ :=
      runVals_props k hk (v :: vs') ⟨[], 0⟩ (by simp) rfl (by simp) htot
    set st := runVals k ⟨[], 0⟩ (v :: vs') with hst
    have hpermst : List.Perm st.vals (v :: vs') := by simpa using hperm'
    have hws : ws = st.vals := by
      apply eq_of_sorted_perm (kindLE k) ws st.vals (hperm.trans hpermst.symm) hsort hp
      intro a ha b hb
      exact hanti a (hperm.mem_iff.mp ha) b (hperm.mem_iff.mp hb)
    have hnum' : st.num_vals = (v :: vs').length := by simpa using hnum
    have hlen : st.vals.length = (v :: vs').length := hpermst.length_eq
    have hidx : (v :: vs').length / 2 < st.vals.length := by
      rw [hlen]
      exact Nat.div_lt_self (Nat.succ_pos _) (by norm_num)
    have hget := List.getElem?_eq_getElem hidx
    rw [hws]
    show median_finalfn (some st) = some st.vals[(v :: vs').length / 2]?
    unfold median_finalfn
    simp only [hnum', head?_drop_eq, hget]

/-- Witness for C1: int64 inputs [5, 1, 3], sorted [1, 3, 5], median index
3 / 2 = 1, result 3. -/
theorem median_returns_middle_of_sorted_witness :
    median_finalfn (runAgg .INT8OID [some (.i64 5), some (.i64 1), some (.i64 3)]) =
      some (some (.i64 3)) := by
  have h := median_returns_middle_of_sorted .INT8OID (by decide)
    [.i64 5, .i64 1, .i64 3] (by decide) (by decide) (by decide)
    [.i64 1, .i64 3, .i64 5] (by decide) (by decide)
  exact h.trans (by decide)

/-- C6: insertion stability.  For every nonempty store and every newly
accepted value of a supported kind, the new value is spliced exactly after
the longest prefix of elements comparing `<=` to it — on a sorted store this
places it immediately after all existing equal elements — and the relative
order of the previously stored elements is untouched (the result is
`takeWhile ++ new ++ dropWhile` of the old list).  Moreover, inserting
[3, 1, 3, 2, 3] with origin markers keeps the three 3s in insertion order
0, 2, 4. -/
theorem insertion_after_all_le_elements :
    (∀ (k : Oid), supportedKind k = true → ∀ (st : SortMemoryState) (v : Datum),
        st.vals ≠ [] →
        (median_transfn k (some st) (some v)).vals =
          st.vals.takeWhile (fun x => kindLE k x v) ++
            v :: st.vals.dropWhile (fun x => kindLE k x v)) ∧
    markedRun = [(1, 1), (2, 3), (3, 0), (3, 2), (3, 4)] := by
  constructor
  · intro k hk st v hne
    obtain ⟨vals, n⟩ := st
    cases vals with
    | nil => exact absurd rfl hne
    | cons x xs =>
      have hred : (median_transfn k (some ⟨x :: xs, n⟩) (some v)).vals =
          switchInsert k v (x :: xs) := rfl
      rw [hred, switchInsert_eq k hk, cmp_loop_eq _ _ _ (by simp)]
  · decide

/-- Witness for C6: inserting a third 3 into the sorted store [3, 3] places
it after the existing equal elements. -/
theorem insertion_after_all_le_elements_witness :
    (median_transfn .INT8OID (some ⟨[.i64 3, .i64 3], 2⟩) (some (.i64 3))).vals =
      [.i64 3, .i64 3, .i64 3] := by
  have h := insertion_after_all_le_elements.1 .INT8OID (by decide)
    ⟨[.i64 3, .i64 3], 2⟩ (.i64 3) (by decide)
  exact h.trans (by decide)

lemma text_to_cstring_eq_strBytes (d : Datum) (h1 : isTextDatum d = true)
    (h2 : 0 ∉ strBytes d) : text_to_cstring d = strBytes d := by
  cases d with
  | i64 n => simp [isTextDatum] at h1
  | f x => simp [isTextDatum] at h1
  | txt s =>
    show (strBytes (.txt s)).takeWhile (fun b => b ≠ 0) = strBytes (.txt s)
    apply takeWhile_of_all
    intro x hx
    simp only [ne_eq, decide_eq_true_eq]
    intro h0
    exact h2 (h0 ▸ hx)

/-- C8: text ordering.  Text values are kept sorted under lexicographic byte
order: for every sequence of text inputs whose UTF-8 bytes contain no NUL (a
PostgreSQL `text` value never does), the stored list is pairwise
non-decreasing under byte-order comparison of the full byte sequences; and
for the inputs ["banana", "apple", "cherry"] the stored sequence is
["apple", "banana", "cherry"] and finalize returns "banana". -/
theorem text_sorted_byte_lex :
    (∀ (vs : List Datum), (∀ d ∈ vs, isTextDatum d = true ∧ 0 ∉ strBytes d) →
      ∀ st, runAgg .TEXTOID (vs.map some) = some st →
        st.vals.Pairwise (fun a b => lexLe (strBytes a) (strBytes b) = true)) ∧
    runAgg .TEXTOID [some (.txt "banana"), some (.txt "apple"), some (.txt "cherry")] =
      some ⟨[.txt "apple", .txt "banana", .txt "cherry"], 3⟩ ∧
    median_finalfn
        (runAgg .TEXTOID [some (.txt "banana"), some (.txt "apple"), some (.txt "cherry")]) =
      some (some (.txt "banana")) := by
  refine ⟨?_, by decide, by decide⟩
  intro vs hd st h
  have htot : ∀ a ∈ vs, ∀ b ∈ vs,
      kindLE .TEXTOID a b = true ∨ kindLE .TEXTOID b a = true := by
    intro a _ b _
    exact lexLe_total _ _
  cases vs with
  | nil => simp [runAgg] at h
  | cons v vs' =>
    rw [runAgg_cons] at h
    cases h
    obtain ⟨hp, _, hperm⟩ :=
      runVals_props .TEXTOID rfl (v :: vs') ⟨[], 0⟩ (by simp) rfl (by simp) htot
    have hpermst : List.Perm (runVals .TEXTOID ⟨[], 0⟩ (v :: vs')).vals (v :: vs') := by
      simpa using hperm
    refine List.Pairwise.imp_of_mem ?_ hp
    intro a b ha hb hr
    have hda := hd a (hpermst.mem_iff.mp ha)
    have hdb := hd b (hpermst.mem_iff.mp hb)
    have hra : text_to_cstring a = strBytes a :=
      text_to_cstring_eq_strBytes a hda.1 hda.2
    have hrb : text_to_cstring b = strBytes b :=
      text_to_cstring_eq_strBytes b hdb.1 hdb.2
    have hr' : lexLe (text_to_cstring a) (text_to_cstring b) = true := hr
    rw [hra, hrb] at hr'
    exact hr'

/-- Witness for C8 at the concrete inputs ["banana", "apple"]. -/
theorem text_sorted_byte_lex_witness :
    (⟨[Datum.txt "apple", Datum.txt "banana"], 2⟩ : SortMemoryState).vals.Pairwise
      (fun a b => lexLe (strBytes a) (strBytes b) = true) :=
  text_sorted_byte_lex.1 [.txt "banana", .txt "apple"] (by decide)
    ⟨[.txt "apple", .txt "banana"], 2⟩ (by decide)

example :
    median_finalfn
        (runAgg .INT8OID [some (.i64 1), some (.i64 2), some (.i64 3), some (.i64 4)]) =
      some (some (.i64 3)) := by
  decide
